import Mathlib

/-!
Verification of the EE2 financial-dashboard repository.

The repository's application shell is `src/App.tsx`, which imports the
financial engine from `./utils/financial` (`calculateNPV`, `calculateIRR`,
`generateTableData`), the AI narration client from `./services/geminiService`
(`analyzeProjectFinancials`), and the data types from `./types`
(`YearlyData`, `ProjectMetrics`, `AnalysisStatus`).

Monetary amounts and rates are embedded as rationals (`ℚ`); the view state
and the `triggerAiAnalysis` handler of `App.tsx` are embedded as explicit
state-passing functions and a step relation.
-/

/-- Embeds the `AnalysisStatus` enum of `types.ts`. -/
inductive AnalysisStatus
  | IDLE
  | LOADING
  | SUCCESS
  | ERROR
deriving DecidableEq, Repr

/-- Embeds the `YearlyData` interface of `types.ts` (field `year` is the
period number). -/
structure YearlyData where
  year : ℕ
  cashFlow : ℚ
  pv : ℚ
  fv : ℚ
deriving DecidableEq, Repr

/-- Embeds the `ProjectMetrics` interface of `types.ts`.  The `irr` field is
an `Option ℚ` because the spec requires the IRR computation to signal a
distinguishable "no solution" result. -/
structure ProjectMetrics where
  npv : ℚ
  irr : Option ℚ
  totalPv : ℚ
  totalFv : ℚ
  initialInvestment : ℚ
  discountRate : ℚ
deriving DecidableEq, Repr

/-- Modelled from the spec: `computeNetPresentValue` (`calculateNPV`) lives in
`utils/financial`, which is not part of the provided sources.  Spec §4.1 gives
the output `initialInvestment + Σ_{t=1..N} cashFlows[t-1] / (1+discountRate)^t`.
This helper accumulates the discounted terms of the remaining cash flows,
`t` being the period of the first remaining flow. -/
def npvTail (discountRate : ℚ) : List ℚ → ℕ → ℚ
  | [], _ => 0
  | cf :: rest, t => cf / (1 + discountRate) ^ t + npvTail discountRate rest (t + 1)

/-- Modelled from the spec: `computeNetPresentValue` (`calculateNPV`) of
`utils/financial`, per spec §4.1. -/
def calculateNPV (initialInvestment : ℚ) (cashFlows : List ℚ)
    (discountRate : ℚ) : ℚ :=
  initialInvestment + npvTail discountRate cashFlows 1

lemma npvTail_eq_sum (discountRate : ℚ) (cashFlows : List ℚ) (k : ℕ) :
    npvTail discountRate cashFlows k =
      ∑ t ∈ Finset.range cashFlows.length,
        cashFlows.getD t 0 / (1 + discountRate) ^ (t + k) := by
  induction cashFlows generalizing k with
  | nil => simp [npvTail]
  | cons cf rest ih =>
    rw [npvTail, ih (k + 1), List.length_cons, Finset.sum_range_succ']
    simp only [List.getD_cons_succ, List.getD_cons_zero, Nat.zero_add]
    rw [add_comm]
    congr 1
    refine Finset.sum_congr rfl fun t _ => ?_
    congr 2
    omega

lemma npvTail_zero_rate (cashFlows : List ℚ) (k : ℕ) :
    npvTail 0 cashFlows k = cashFlows.sum := by
  induction cashFlows generalizing k with
  | nil => simp [npvTail]
  | cons cf rest ih => simp [npvTail, ih]

/-- C1: for every initial investment, cash-flow list and discount rate
greater than `-1`, `calculateNPV` returns the initial investment plus the sum
over `t = 1..N` of `cashFlows[t-1] / (1+discountRate)^t`. -/
theorem calculateNPV_closed_form (initialInvestment : ℚ) (cashFlows : List ℚ)
    (discountRate : ℚ) (h : -1 < discountRate) :
    calculateNPV initialInvestment cashFlows discountRate =
      initialInvestment +
        ∑ t ∈ Finset.range cashFlows.length,
          cashFlows.getD t 0 / (1 + discountRate) ^ (t + 1) := by
  rw [calculateNPV, npvTail_eq_sum]

/-- Witness for C1 at a concrete input. -/
theorem calculateNPV_closed_form_witness :
    (-1 : ℚ) < 1 ∧
      calculateNPV (-200000) [50000, 60000] 1 =
        -200000 +
          ∑ t ∈ Finset.range ([(50000 : ℚ), 60000].length),
            [(50000 : ℚ), 60000].getD t 0 / (1 + 1) ^ (t + 1) :=
  ⟨by simp, calculateNPV_closed_form (-200000) [50000, 60000] 1 (by simp)⟩

/-- C7: at discount rate `0`, `calculateNPV` returns the initial investment
plus the plain sum of the cash flows. -/
theorem calculateNPV_zero_rate (initialInvestment : ℚ) (cashFlows : List ℚ) :
    calculateNPV initialInvestment cashFlows 0 =
      initialInvestment + cashFlows.sum := by
  rw [calculateNPV, npvTail_zero_rate]

instance : Inhabited YearlyData := ⟨⟨0, 0, 0, 0⟩⟩

/-- Modelled from the spec: helper for `generatePeriodTable`
(`generateTableData`) of `utils/financial`, which is not part of the provided
sources.  Builds the records for periods `t, t+1, ...` over the remaining
cash flows; `n` is the total number of periods, so per spec §4.1 each record
carries `presentValue = cashFlow / (1+discountRate)^t` and
`futureValue = cashFlow × (1+discountRate)^(n-t)`. -/
def tableRows (discountRate : ℚ) (n : ℕ) : List ℚ → ℕ → List YearlyData
  | [], _ => []
  | cf :: rest, t =>
    { year := t
      cashFlow := cf
      pv := cf / (1 + discountRate) ^ t
      fv := cf * (1 + discountRate) ^ (n - t) } ::
      tableRows discountRate n rest (t + 1)

/-- Modelled from the spec: `generatePeriodTable` (`generateTableData`) of
`utils/financial`, spec §4.1: one record for period 0 with
`cashFlow = presentValue = initialInvestment` and
`futureValue = initialInvestment × (1+discountRate)^N`, followed by one
record per period `t = 1..N`. -/
def generateTableData (initialInvestment : ℚ) (cashFlows : List ℚ)
    (discountRate : ℚ) : List YearlyData :=
  { year := 0
    cashFlow := initialInvestment
    pv := initialInvestment
    fv := initialInvestment * (1 + discountRate) ^ cashFlows.length } ::
    tableRows discountRate cashFlows.length cashFlows 1

lemma tableRows_length (discountRate : ℚ) (n : ℕ) (cashFlows : List ℚ)
    (k : ℕ) : (tableRows discountRate n cashFlows k).length = cashFlows.length := by
  induction cashFlows generalizing k with
  | nil => rfl
  | cons cf rest ih => simp [tableRows, ih]

lemma tableRows_map_cashFlow (discountRate : ℚ) (n : ℕ) (cashFlows : List ℚ)
    (k : ℕ) :
    (tableRows discountRate n cashFlows k).map YearlyData.cashFlow = cashFlows := by
  induction cashFlows generalizing k with
  | nil => rfl
  | cons cf rest ih => simp [tableRows, ih]

lemma tableRows_pv_sum (discountRate : ℚ) (n : ℕ) (cashFlows : List ℚ)
    (k : ℕ) :
    ((tableRows discountRate n cashFlows k).map YearlyData.pv).sum =
      npvTail discountRate cashFlows k := by
  induction cashFlows generalizing k with
  | nil => rfl
  | cons cf rest ih => simp [tableRows, npvTail, ih]

lemma tableRows_getD (discountRate : ℚ) (n : ℕ) (cashFlows : List ℚ)
    (k j : ℕ) (hj : j < cashFlows.length) :
    (tableRows discountRate n cashFlows k).getD j default =
      { year := k + j
        cashFlow := cashFlows.getD j 0
        pv := cashFlows.getD j 0 / (1 + discountRate) ^ (k + j)
        fv := cashFlows.getD j 0 * (1 + discountRate) ^ (n - (k + j)) } := by
  induction cashFlows generalizing k j with
  | nil => simp at hj
  | cons cf rest ih =>
    cases j with
    | zero => simp [tableRows]
    | succ j =>
      have hj' : j < rest.length := by simpa using hj
      have := ih (k + 1) j hj'
      simp only [tableRows, List.getD_cons_succ, List.getD_cons_succ, this]
      have hk : k + 1 + j = k + (j + 1) := by omega
      rw [hk]

/-- C5: `generateTableData` returns exactly `N+1` records and the sum of the
`cashFlow` field over all records equals the initial investment plus the sum
of the cash flows. -/
theorem generateTableData_length_and_cashFlow_sum (initialInvestment : ℚ)
    (cashFlows : List ℚ) (discountRate : ℚ) :
    (generateTableData initialInvestment cashFlows discountRate).length =
        cashFlows.length + 1 ∧
    ((generateTableData initialInvestment cashFlows discountRate).map
        YearlyData.cashFlow).sum = initialInvestment + cashFlows.sum := by
  constructor
  · simp [generateTableData, tableRows_length]
  · simp [generateTableData, tableRows_map_cashFlow]

/-- C2: summing the `pv` field over all records of `generateTableData`
(the period-0 record included) equals `calculateNPV` on the same inputs. -/
theorem generateTableData_pv_sum_eq_npv (initialInvestment : ℚ)
    (cashFlows : List ℚ) (discountRate : ℚ) (h : -1 < discountRate) :
    ((generateTableData initialInvestment cashFlows discountRate).map
        YearlyData.pv).sum =
      calculateNPV initialInvestment cashFlows discountRate := by
  simp [generateTableData, calculateNPV, tableRows_pv_sum]

/-- Witness for C2 at a concrete input. -/
theorem generateTableData_pv_sum_eq_npv_witness :
    (-1 : ℚ) < 1 ∧
      ((generateTableData 7 [50000, 60000] 1).map YearlyData.pv).sum =
        calculateNPV 7 [50000, 60000] 1 :=
  ⟨by simp, generateTableData_pv_sum_eq_npv 7 [50000, 60000] 1 (by simp)⟩

/-- C6: the period-0 record of `generateTableData` has
`cashFlow = pv = initialInvestment` and
`fv = initialInvestment × (1+discountRate)^N`, and each record for period
`t = 1..N` has `pv = cashFlows[t-1] / (1+discountRate)^t` and
`fv = cashFlows[t-1] × (1+discountRate)^(N-t)`. -/
theorem generateTableData_record_fields (initialInvestment : ℚ)
    (cashFlows : List ℚ) (discountRate : ℚ) (h : -1 < discountRate) :
    (generateTableData initialInvestment cashFlows discountRate).getD 0 default =
      { year := 0
        cashFlow := initialInvestment
        pv := initialInvestment
        fv := initialInvestment * (1 + discountRate) ^ cashFlows.length } ∧
    ∀ t, 1 ≤ t → t ≤ cashFlows.length →
      ((generateTableData initialInvestment cashFlows discountRate).getD t
            default).pv =
          cashFlows.getD (t - 1) 0 / (1 + discountRate) ^ t ∧
      ((generateTableData initialInvestment cashFlows discountRate).getD t
            default).fv =
          cashFlows.getD (t - 1) 0 * (1 + discountRate) ^ (cashFlows.length - t) := by
  refine ⟨rfl, ?_⟩
  intro t ht1 htN
  obtain ⟨j, rfl⟩ : ∃ j, t = j + 1 := ⟨t - 1, by omega⟩
  have hj : j < cashFlows.length := by omega
  simp only [generateTableData, List.getD_cons_succ,
    tableRows_getD discountRate cashFlows.length cashFlows 1 j hj,
    Nat.add_sub_cancel]
  constructor
  · congr 2
    omega
  · congr 3
    omega

/-- Witness for C6 at a concrete input, specialized to period 2. -/
theorem generateTableData_record_fields_witness :
    (-1 : ℚ) < 1 ∧ (1 : ℕ) ≤ 2 ∧ 2 ≤ [(10 : ℚ), 20, 30].length ∧
      ((generateTableData (-100) [10, 20, 30] 1).getD 2 default).pv =
        [(10 : ℚ), 20, 30].getD 1 0 / (1 + 1) ^ 2 :=
  ⟨by simp, by simp, by simp,
    ((generateTableData_record_fields (-100) [10, 20, 30] 1
        (by simp)).2 2 (by simp) (by simp)).1⟩

/-- Modelled from the spec: bisection helper for `computeInternalRateOfReturn`
(`calculateIRR`) of `utils/financial`, which is not part of the provided
sources.  Spec §4.1 mandates an iterative root-finding method with a fixed
iteration count over a bounded bracket; each step keeps the half of the
bracket over which `f` changes sign. -/
def bisect (f : ℚ → ℚ) : ℕ → ℚ → ℚ → ℚ
  | 0, lo, hi => (lo + hi) / 2
  | k + 1, lo, hi =>
    let mid := (lo + hi) / 2
    if f lo * f mid ≤ 0 then bisect f k lo mid else bisect f k mid hi

/-- Modelled from the spec: `computeInternalRateOfReturn` (`calculateIRR`) of
`utils/financial`, which is not part of the provided sources.  Spec §4.1:
searches the bracket `[-0.99, 10]` for a rate zeroing the NPV; when no sign
change exists over the bracket it reports "no solution" (`none`), and
otherwise returns the found rate × 100 (a percentage). -/
def calculateIRR (initialInvestment : ℚ) (cashFlows : List ℚ) : Option ℚ :=
  let f : ℚ → ℚ := fun r => calculateNPV initialInvestment cashFlows r
  if 0 < f (-99/100) * f 10 then none
  else some (bisect f 60 (-99/100) 10 * 100)

lemma npvTail_nonneg (discountRate : ℚ) (hr : 0 < 1 + discountRate)
    (cashFlows : List ℚ) (k : ℕ) (hcf : ∀ x ∈ cashFlows, 0 < x) :
    0 ≤ npvTail discountRate cashFlows k := by
  induction cashFlows generalizing k with
  | nil => simp [npvTail]
  | cons cf rest ih =>
    have hcf0 : 0 < cf := hcf cf (List.mem_cons_self cf rest)
    have hrec := ih (k + 1) fun x hx => hcf x (List.mem_cons_of_mem cf hx)
    have hterm : 0 ≤ cf / (1 + discountRate) ^ k :=
      div_nonneg hcf0.le (pow_nonneg hr.le k)
    simpa [npvTail] using add_nonneg hterm hrec

lemma calculateNPV_pos (initialInvestment : ℚ) (cashFlows : List ℚ)
    (discountRate : ℚ) (hr : 0 < 1 + discountRate)
    (hall : ∀ x ∈ initialInvestment :: cashFlows, 0 < x) :
    0 < calculateNPV initialInvestment cashFlows discountRate := by
  have hi : 0 < initialInvestment :=
    hall initialInvestment (List.mem_cons_self initialInvestment cashFlows)
  have ht : 0 ≤ npvTail discountRate cashFlows 1 :=
    npvTail_nonneg discountRate hr cashFlows 1
      fun x hx => hall x (List.mem_cons_of_mem initialInvestment hx)
  exact add_pos_of_pos_of_nonneg hi ht

lemma npvTail_nonpos (discountRate : ℚ) (hr : 0 < 1 + discountRate)
    (cashFlows : List ℚ) (k : ℕ) (hcf : ∀ x ∈ cashFlows, x < 0) :
    npvTail discountRate cashFlows k ≤ 0 := by
  induction cashFlows generalizing k with
  | nil => simp [npvTail]
  | cons cf rest ih =>
    have hcf0 : cf < 0 := hcf cf (List.mem_cons_self cf rest)
    have hrec := ih (k + 1) fun x hx => hcf x (List.mem_cons_of_mem cf hx)
    have hterm : cf / (1 + discountRate) ^ k ≤ 0 :=
      div_nonpos_of_nonpos_of_nonneg hcf0.le (pow_nonneg hr.le k)
    simpa [npvTail] using add_nonpos hterm hrec

lemma calculateNPV_neg (initialInvestment : ℚ) (cashFlows : List ℚ)
    (discountRate : ℚ) (hr : 0 < 1 + discountRate)
    (hall : ∀ x ∈ initialInvestment :: cashFlows, x < 0) :
    calculateNPV initialInvestment cashFlows discountRate < 0 := by
  have hi : initialInvestment < 0 :=
    hall initialInvestment (List.mem_cons_self initialInvestment cashFlows)
  have ht : npvTail discountRate cashFlows 1 ≤ 0 :=
    npvTail_nonpos discountRate hr cashFlows 1
      fun x hx => hall x (List.mem_cons_of_mem initialInvestment hx)
  exact add_neg_of_neg_of_nonpos hi ht

/-- C4: when all cash flows, the initial outlay included, share the same
strict sign, `calculateIRR` reports "no solution" (`none`) rather than a
numeric rate. -/
theorem calculateIRR_same_sign_none (initialInvestment : ℚ)
    (cashFlows : List ℚ)
    (h : (∀ x ∈ initialInvestment :: cashFlows, 0 < x) ∨
         (∀ x ∈ initialInvestment :: cashFlows, x < 0)) :
    calculateIRR initialInvestment cashFlows = none := by
  have hlo : (0 : ℚ) < 1 + (-99/100) := by norm_num
  have hhi : (0 : ℚ) < 1 + 10 := by norm_num
  have key : 0 < calculateNPV initialInvestment cashFlows (-99/100) *
      calculateNPV initialInvestment cashFlows 10 := by
    rcases h with hp | hn
    · exact mul_pos (calculateNPV_pos _ _ _ hlo hp) (calculateNPV_pos _ _ _ hhi hp)
    · exact mul_pos_of_neg_of_neg (calculateNPV_neg _ _ _ hlo hn)
        (calculateNPV_neg _ _ _ hhi hn)
  simp [calculateIRR, key]

/-- Witness for C4 at a concrete all-positive input. -/
theorem calculateIRR_same_sign_none_witness :
    ((∀ x ∈ ((5 : ℚ) :: [3, 4]), 0 < x) ∨ (∀ x ∈ ((5 : ℚ) :: [3, 4]), x < 0)) ∧
      calculateIRR 5 [3, 4] = none :=
  ⟨Or.inl (by simp), calculateIRR_same_sign_none 5 [3, 4] (Or.inl (by simp))⟩

/-- Embeds the metrics computation of the mount effect in `src/App.tsx`
(lines 41-58): `npv`, `irr` and the period table come from the financial
engine, and `totalPv`/`totalFv` are reduces over the table that add
`pv`/`fv` only for rows with `year > 0` (lines 47-48). -/
def computeMetrics (initialInvestment : ℚ) (cashFlows : List ℚ)
    (discountRate : ℚ) : ProjectMetrics :=
  let npv := calculateNPV initialInvestment cashFlows discountRate
  let irr := calculateIRR initialInvestment cashFlows
  let tData := generateTableData initialInvestment cashFlows discountRate
  let totalPv := tData.foldl (fun acc curr => acc + if 0 < curr.year then curr.pv else 0) 0
  let totalFv := tData.foldl (fun acc curr => acc + if 0 < curr.year then curr.fv else 0) 0
  { npv := npv, irr := irr, totalPv := totalPv, totalFv := totalFv,
    initialInvestment := initialInvestment, discountRate := discountRate }

lemma foldl_add_eq_sum (f : YearlyData → ℚ) (l : List YearlyData) (c : ℚ) :
    l.foldl (fun acc curr => acc + f curr) c = c + (l.map f).sum := by
  induction l generalizing c with
  | nil => simp
  | cons x xs ih => simp [ih, add_assoc]

lemma sum_map_ite_pos_year (f : YearlyData → ℚ) (l : List YearlyData) :
    (l.map fun x => if 0 < x.year then f x else 0).sum =
      ((l.filter fun x => 0 < x.year).map f).sum := by
  induction l with
  | nil => rfl
  | cons x xs ih =>
    by_cases h : 0 < x.year
    · simp [List.filter_cons, h, ih]
    · simp [List.filter_cons, h, ih]

/-- C8: in the metrics computed by the mount effect, `totalPv` (resp.
`totalFv`) equals the sum of `pv` (resp. `fv`) over the table records with
period greater than 0 only — the period-0 initial-outlay record is excluded
from both sums — and the metrics echo the `initialInvestment` and
`discountRate` inputs unchanged. -/
theorem computeMetrics_totals_and_echo (initialInvestment : ℚ)
    (cashFlows : List ℚ) (discountRate : ℚ) :
    (computeMetrics initialInvestment cashFlows discountRate).totalPv =
        (((generateTableData initialInvestment cashFlows discountRate).filter
            fun rec => 0 < rec.year).map YearlyData.pv).sum ∧
    (computeMetrics initialInvestment cashFlows discountRate).totalFv =
        (((generateTableData initialInvestment cashFlows discountRate).filter
            fun rec => 0 < rec.year).map YearlyData.fv).sum ∧
    (computeMetrics initialInvestment cashFlows discountRate).initialInvestment =
        initialInvestment ∧
    (computeMetrics initialInvestment cashFlows discountRate).discountRate =
        discountRate := by
  refine ⟨?_, ?_, rfl, rfl⟩
  · show (generateTableData initialInvestment cashFlows discountRate).foldl
        (fun acc curr => acc + if 0 < curr.year then curr.pv else 0) 0 = _
    rw [foldl_add_eq_sum (fun curr => if 0 < curr.year then curr.pv else 0),
      zero_add, sum_map_ite_pos_year]
  · show (generateTableData initialInvestment cashFlows discountRate).foldl
        (fun acc curr => acc + if 0 < curr.year then curr.fv else 0) 0 = _
    rw [foldl_add_eq_sum (fun curr => if 0 < curr.year then curr.fv else 0),
      zero_add, sum_map_ite_pos_year]

/-- Outcome of the awaited `analyzeProjectFinancials` call in `src/App.tsx`
line 64: the returned promise either resolves with the narration text or
rejects. -/
inductive ServiceOutcome
  | resolved (text : String)
  | rejected
deriving DecidableEq, Repr

/-- The AI-related view state of `src/App.tsx`: `aiAnalysis` (line 35) and
`aiStatus` (line 36). -/
structure AiViewState where
  aiStatus : AnalysisStatus
  aiAnalysis : String
deriving DecidableEq, Repr

/-- Embeds `triggerAiAnalysis` of `src/App.tsx` (lines 61-67) as a function
of the current `metrics` state, the AI view state and the outcome of the
awaited service call.  Returns the final view state and whether
`analyzeProjectFinancials` was invoked.  With `metrics = null` the handler
returns at line 62 before doing anything.  Otherwise it sets
`aiStatus := LOADING` (line 63) and awaits the call (line 64): when the
promise resolves, lines 65-66 store the text and set `SUCCESS`; when it
rejects, the rejection propagates out of the handler — there is no
`try`/`catch` in the function — so lines 65-66 never run and the state
keeps the `LOADING` written at line 63. -/
def triggerAiAnalysis (metrics : Option ProjectMetrics) (s : AiViewState)
    (outcome : ServiceOutcome) : AiViewState × Bool :=
  match metrics with
  | none => (s, false)
  | some _ =>
    match outcome with
    | ServiceOutcome.resolved text =>
        ({ aiStatus := AnalysisStatus.SUCCESS, aiAnalysis := text }, true)
    | ServiceOutcome.rejected =>
        ({ aiStatus := AnalysisStatus.LOADING, aiAnalysis := s.aiAnalysis }, true)

/-- C3 fails on the code: `triggerAiAnalysis` contains no `try`/`catch`, so
a rejected narration request leaves the view in `LOADING` — no code path in
`src/App.tsx` ever assigns `AnalysisStatus.ERROR`, even though the branch at
lines 414-418 renders an error message for that status.  This theorem
evaluates the handler at a concrete failing input (metrics present, request
rejected): the resulting status is `LOADING`, not `ERROR`. -/
theorem triggerAiAnalysis_rejected_stays_loading :
    (triggerAiAnalysis (some ⟨0, none, 0, 0, -200000, 12/100⟩)
        ⟨AnalysisStatus.IDLE, ""⟩ ServiceOutcome.rejected).1.aiStatus =
        AnalysisStatus.LOADING ∧
    (triggerAiAnalysis (some ⟨0, none, 0, 0, -200000, 12/100⟩)
        ⟨AnalysisStatus.IDLE, ""⟩ ServiceOutcome.rejected).1.aiStatus ≠
        AnalysisStatus.ERROR :=
  ⟨rfl, by decide⟩

/-- C10: invoked while `metrics` is `null`, `triggerAiAnalysis` returns at
the line-62 guard, leaving the view state unchanged and issuing no request
to the narration service. -/
theorem triggerAiAnalysis_no_metrics (s : AiViewState)
    (outcome : ServiceOutcome) :
    triggerAiAnalysis none s outcome = (s, false) := rfl

/-- The AI view status extended with the number of in-flight narration
requests, for stating the single-request property of spec §5. -/
structure UiState where
  aiStatus : AnalysisStatus
  inFlight : ℕ
deriving DecidableEq, Repr

/-- Event-level step relation of the AI tab in `src/App.tsx`.  A click on
the analyze button (lines 390-400) is possible only while the button is
enabled, i.e. `aiStatus ≠ LOADING` (the `disabled` prop, line 392); with no
metrics the handler returns at line 62, and with metrics present it sets
`LOADING` and starts one request (lines 63-64).  A started request later
settles: on resolution lines 65-66 set `SUCCESS`; on rejection the handler
aborts with the status left as written. -/
inductive UiStep (metrics : Option ProjectMetrics) : UiState → UiState → Prop
  | clickNoMetrics (s : UiState)
      (henabled : s.aiStatus ≠ AnalysisStatus.LOADING)
      (hm : metrics = none) : UiStep metrics s s
  | clickStart (s : UiState)
      (henabled : s.aiStatus ≠ AnalysisStatus.LOADING)
      (m : ProjectMetrics) (hm : metrics = some m) :
      UiStep metrics s ⟨AnalysisStatus.LOADING, s.inFlight + 1⟩
  | settleResolved (st : AnalysisStatus) (n : ℕ) :
      UiStep metrics ⟨st, n + 1⟩ ⟨AnalysisStatus.SUCCESS, n⟩
  | settleRejected (st : AnalysisStatus) (n : ℕ) :
      UiStep metrics ⟨st, n + 1⟩ ⟨st, n⟩

/-- States reachable from the initial view state: `aiStatus = IDLE`
(line 36) and no request in flight. -/
def UiReachable (metrics : Option ProjectMetrics) : UiState → Prop :=
  Relation.ReflTransGen (UiStep metrics) ⟨AnalysisStatus.IDLE, 0⟩

lemma uiInvariant_step (metrics : Option ProjectMetrics) (s t : UiState)
    (hstep : UiStep metrics s t)
    (hinv : s.inFlight ≤ 1 ∧
      (s.aiStatus ≠ AnalysisStatus.LOADING → s.inFlight = 0)) :
    t.inFlight ≤ 1 ∧
      (t.aiStatus ≠ AnalysisStatus.LOADING → t.inFlight = 0) := by
  cases hstep with
  | clickNoMetrics s henabled hm => exact hinv
  | clickStart s henabled m hm =>
    have h0 : s.inFlight = 0 := hinv.2 henabled
    exact ⟨by simp [h0], fun hne => absurd rfl hne⟩
  | settleResolved st n =>
    have h1 : n + 1 ≤ 1 := by simpa using hinv.1
    have hn : n = 0 := by omega
    subst hn
    exact ⟨by simp, fun _ => rfl⟩
  | settleRejected st n =>
    have h1 : n + 1 ≤ 1 := by simpa using hinv.1
    have hn : n = 0 := by omega
    subst hn
    exact ⟨by simp, fun _ => rfl⟩

/-- C9: the analyze button is disabled while `aiStatus` is `LOADING`, so in
every UI state reachable from the initial one at most one narration request
is in flight. -/
theorem uiReachable_at_most_one_in_flight (metrics : Option ProjectMetrics)
    (s : UiState) (h : UiReachable metrics s) : s.inFlight ≤ 1 := by
  have hinv : s.inFlight ≤ 1 ∧
      (s.aiStatus ≠ AnalysisStatus.LOADING → s.inFlight = 0) := by
    induction h with
    | refl => exact ⟨Nat.zero_le 1, fun _ => rfl⟩
    | tail hab hstep ih => exact uiInvariant_step _ _ _ hstep ih
  exact hinv.1

/-- Witness for C9 at the initial state, which is trivially reachable. -/
theorem uiReachable_at_most_one_in_flight_witness :
    UiReachable none ⟨AnalysisStatus.IDLE, 0⟩ ∧
      (UiState.mk AnalysisStatus.IDLE 0).inFlight ≤ 1 :=
  ⟨Relation.ReflTransGen.refl,
    uiReachable_at_most_one_in_flight none ⟨AnalysisStatus.IDLE, 0⟩
      Relation.ReflTransGen.refl⟩
